import Mathlib

set_option linter.unusedSectionVars false

/-!
Verification development for the imagejs cache core
(`packages/core/src/modules/cache.ts`): the Hash Identity helpers
(`computeBufferHash` / `computeStreamHash` / `computeAnyHash`), the in-memory
`HashCache` (get/set/delete/clear, TTL timers, capacity eviction) and the
durable `PersistentHashCache` layer (debounced snapshot saves over a backing
file).

Modelling conventions:
- JavaScript `Map` objects are modelled as association lists in insertion
  order (`Map.prototype.set` updates an existing key in place, preserving its
  position; a fresh key is appended at the end).
- `setTimeout` handles are modelled by a table of pending timers carrying a
  fresh numeric id, the key whose deletion the callback performs, and the
  requested delay; `clearTimeout` removes an id from the table, and firing a
  timer is an explicit step (the scheduler only guarantees "sometime after
  the delay", so firing order is left nondeterministic).
- The cryptographic digest (`crypto.createHash`) is an external collaborator;
  it is modelled as an arbitrary function from algorithm, encoding and input
  data to a digest string.  The `Hash` object's incremental state is the
  concatenation of the bytes fed to `update`.
- The backing file of the durable layer is observed by the code only through
  `JSON.parse`, so its content is modelled by its parse outcome: `none` for
  content `JSON.parse` rejects, `some j` for content parsing to the JSON
  value `j`.
-/

/-- JSON values, as produced by `JSON.parse`.  Numbers are modelled as
integers; none of the verified properties depends on float formatting. -/
inductive Json where
  | null : Json
  | bool : Bool → Json
  | num : Int → Json
  | str : String → Json
  | arr : List Json → Json
  | obj : List (String × Json) → Json

/-- Escape of one character inside a JSON string literal
(the cases exercised by this development; `JSON.stringify` escaping). -/
def escapeJsonChar (c : Char) : String :=
  if c = '"' then "\\\""
  else if c = '\\' then "\\\\"
  else if c = '\n' then "\\n"
  else if c = '\t' then "\\t"
  else if c = '\r' then "\\r"
  else c.toString

/-- Escape a whole string for embedding in a JSON document. -/
def escapeJson (s : String) : String :=
  String.join (s.toList.map escapeJsonChar)

mutual

/-- Serialization of a JSON value, following `JSON.stringify`: object fields
are emitted in the order in which the value lists them (no canonical
reordering). -/
def Json.stringify : Json → String
  | Json.null => "null"
  | Json.bool true => "true"
  | Json.bool false => "false"
  | Json.num n => toString n
  | Json.str s => "\"" ++ escapeJson s ++ "\""
  | Json.arr xs => "[" ++ stringifyArray xs ++ "]"
  | Json.obj fs => "\x7b" ++ stringifyFields fs ++ "\x7d"

/-- Comma-separated serialization of array elements. -/
def stringifyArray : List Json → String
  | [] => ""
  | [x] => Json.stringify x
  | x :: xs => Json.stringify x ++ "," ++ stringifyArray xs

/-- Comma-separated serialization of object fields, in list order. -/
def stringifyFields : List (String × Json) → String
  | [] => ""
  | [kv] => "\"" ++ escapeJson kv.1 ++ "\":" ++ Json.stringify kv.2
  | kv :: kvs =>
      "\"" ++ escapeJson kv.1 ++ "\":" ++ Json.stringify kv.2 ++ "," ++
        stringifyFields kvs

end

/-! ### JavaScript `Map` as an insertion-ordered association list -/

variable {K V : Type} [DecidableEq K]

/-- `Map.prototype.get`: value of the first (unique) entry for a key. -/
def jsGet : List (K × V) → K → Option V
  | [], _ => none
  | (k1, v) :: rest, k => if k1 = k then some v else jsGet rest k

/-- `Map.prototype.set`: update an existing key in place (keeping its
insertion position), else append the new entry at the end. -/
def jsSet : List (K × V) → K → V → List (K × V)
  | [], k, v => [(k, v)]
  | (k1, v1) :: rest, k, v =>
      if k1 = k then (k, v) :: rest else (k1, v1) :: jsSet rest k v

/-- `Map.prototype.delete`: remove the entry for a key, reporting whether one
existed. -/
def jsDelete : List (K × V) → K → Bool × List (K × V)
  | [], _ => (false, [])
  | (k1, v1) :: rest, k =>
      if k1 = k then (true, rest)
      else
        let r := jsDelete rest k
        (r.1, (k1, v1) :: r.2)

@[simp] theorem jsGet_nil (k : K) : jsGet ([] : List (K × V)) k = none := rfl

theorem jsGet_jsSet_self (l : List (K × V)) (k : K) (v : V) :
    jsGet (jsSet l k v) k = some v := by
  induction l with
  | nil => simp [jsSet, jsGet]
  | cons hd tl ih =>
      obtain ⟨k1, v1⟩ := hd
      by_cases h : k1 = k
      · simp [jsSet, jsGet, h]
      · simp [jsSet, jsGet, h, ih]

theorem jsSet_length_le (l : List (K × V)) (k : K) (v : V) :
    (jsSet l k v).length ≤ l.length + 1 := by
  induction l with
  | nil => simp [jsSet]
  | cons hd tl ih =>
      obtain ⟨k1, v1⟩ := hd
      by_cases h : k1 = k
      · simp [jsSet, h]
      · simp only [jsSet, h, if_false, List.length_cons]
        omega

theorem jsSet_ne_nil (l : List (K × V)) (k : K) (v : V) :
    jsSet l k v ≠ [] := by
  cases l with
  | nil => simp [jsSet]
  | cons hd tl =>
      obtain ⟨k1, v1⟩ := hd
      by_cases h : k1 = k <;> simp [jsSet, h]

theorem jsGet_none_iff (l : List (K × V)) (k : K) :
    jsGet l k = none ↔ k ∉ l.map Prod.fst := by
  induction l with
  | nil => simp
  | cons hd tl ih =>
      obtain ⟨k1, v1⟩ := hd
      by_cases h : k1 = k
      · simp [jsGet, h]
      · simp [jsGet, h, ih, Ne.symm h]

theorem jsSet_of_absent (l : List (K × V)) (k : K) (v : V)
    (h : jsGet l k = none) : jsSet l k v = l ++ [(k, v)] := by
  induction l with
  | nil => simp [jsSet]
  | cons hd tl ih =>
      obtain ⟨k1, v1⟩ := hd
      by_cases hk : k1 = k
      · simp [jsGet, hk] at h
      · simp only [jsGet, hk, if_false] at h
        simp [jsSet, hk, ih h]

theorem jsGet_append_of_none (l1 l2 : List (K × V)) (k : K)
    (h : jsGet l1 k = none) : jsGet (l1 ++ l2) k = jsGet l2 k := by
  induction l1 with
  | nil => simp
  | cons hd tl ih =>
      obtain ⟨k1, v1⟩ := hd
      by_cases hk : k1 = k
      · simp [jsGet, hk] at h
      · simp only [jsGet, hk, if_false] at h
        simp [jsGet, hk, ih h]

theorem jsDelete_cons_self (k : K) (v : V) (t : List (K × V)) :
    jsDelete ((k, v) :: t) k = (true, t) := by
  simp [jsDelete]

theorem jsDelete_length_le (l : List (K × V)) (k : K) :
    (jsDelete l k).2.length ≤ l.length := by
  induction l with
  | nil => simp [jsDelete]
  | cons hd tl ih =>
      obtain ⟨k1, v1⟩ := hd
      by_cases h : k1 = k
      · simp only [jsDelete, h, if_true, List.length_cons]
        omega
      · simp only [jsDelete, h, if_false, List.length_cons]
        omega

theorem jsGet_jsDelete_ne (l : List (K × V)) (k1 k : K) (h : k1 ≠ k) :
    jsGet (jsDelete l k1).2 k = jsGet l k := by
  induction l with
  | nil => simp [jsDelete]
  | cons hd tl ih =>
      obtain ⟨ka, va⟩ := hd
      by_cases hk : ka = k1
      · subst hk
        simp [jsDelete, jsGet, h]
      · simp only [jsDelete, hk, if_false, jsGet]
        by_cases hk2 : ka = k
        · simp [jsGet, hk2]
        · simp [jsGet, hk2, ih]

/-! ### Hash Identity (`HashOptions`, `computeBufferHash`, `computeStreamHash`,
`computeAnyHash`) -/

/-- `HashOptions` of the source: digest algorithm, output encoding,
fingerprint truncation length, default TTL in milliseconds (null = never
expires by default), maximum entry count (null = unbounded). -/
structure HashOpts where
  algorithm : String
  encoding : String
  length : Nat
  ttl : Option Int
  maxEntries : Option Int

/-- A `Partial<HashOptions>` per-call override (only the fields the hashing
helpers consult). -/
structure OptOverride where
  algorithm : Option String
  encoding : Option String
  length : Option Nat

/-- The empty per-call override (`options = \x7b\x7d`). -/
def noOverride : OptOverride := ⟨none, none, none⟩

/-- The external digest collaborator: `createHash(algorithm)` fed some bytes
and read back with `digest(encoding)`.  Arbitrary function of the algorithm
identifier, the encoding identifier and the accumulated input. -/
def Digest : Type := String → String → String → String

/-- `HashCache.computeBufferHash`: digest the buffer with the configured (or
overridden) algorithm, encode, truncate to the configured length
(`.slice(0, length)`). -/
def computeBufferHash (digest : Digest) (cfg : HashOpts) (o : OptOverride)
    (buf : String) : String :=
  (digest (o.algorithm.getD cfg.algorithm) (o.encoding.getD cfg.encoding)
      buf).take (o.length.getD cfg.length)

/-- The incremental state of a `crypto` `Hash` object: `update` appends the
chunk to the bytes digested so far. -/
def hashUpdate (acc chunk : String) : String := acc ++ chunk

/-- `HashCache.computeStreamHash`: consume the stream's `data` chunks in
order into the incremental hash; on `end`, resolve with the encoded truncated
digest; on `error`, reject with the stream's error.  A stream is modelled as
the list of chunks it emits followed by either a normal end (`none`) or an
error (`some e`). -/
def computeStreamHash (digest : Digest) (cfg : HashOpts) (o : OptOverride)
    (chunks : List String) (streamErr : Option String) : Except String String :=
  let acc := chunks.foldl hashUpdate ""
  match streamErr with
  | some e => Except.error e
  | none =>
      Except.ok ((digest (o.algorithm.getD cfg.algorithm)
          (o.encoding.getD cfg.encoding) acc).take (o.length.getD cfg.length))

/-- `HashCache.computeAnyHash`: hash of `Buffer.from(JSON.stringify(value))`
via `computeBufferHash`. -/
def computeAnyHash (digest : Digest) (cfg : HashOpts) (o : OptOverride)
    (value : Json) : String :=
  computeBufferHash digest cfg o (Json.stringify value)

/-! ### Core Cache (`HashCache`) -/

/-- State of one `HashCache` instance.
`cache` is the `_cache` map (insertion-ordered); `expiryMap` maps a key to
the id of its active timeout (the source also records a `ts` timestamp that
is never read, so it is omitted); `pending` is the table of live `setTimeout`
handles: id, the key the callback deletes, and the requested delay in
milliseconds; `nextId` supplies fresh timer ids. -/
structure CacheState (K V : Type) where
  cache : List (K × V)
  expiryMap : List (K × Nat)
  pending : List (Nat × K × Int)
  nextId : Nat

/-- A freshly constructed cache: empty store, no timers. -/
def emptyCache : CacheState K V := ⟨[], [], [], 0⟩

/-- `clearTimeout` on one timer id: the handle is no longer pending. -/
def clearTimeoutIn (st : CacheState K V) (tid : Nat) : CacheState K V :=
  { st with pending := st.pending.filter (fun t => t.1 != tid) }

/-- `hasMaxEntries(-1)` of the source, as a function of the current store
size: `maxEntries !== null && size - 1 >= maxEntries`. -/
def overCapacity (cfg : HashOpts) (size : Nat) : Bool :=
  match cfg.maxEntries with
  | some m => decide ((size : Int) - 1 ≥ m)
  | none => false

namespace HashCache

/-- `HashCache.get`: plain `Map` lookup (no TTL refresh). -/
def get (st : CacheState K V) (k : K) : Option V := jsGet st.cache k

/-- `HashCache.delete`: remove the entry and the `expiryMap` record
(`this._cache.delete(id); this.expiryMap.delete(id)`), returning whether an
entry existed.  Note the source does NOT `clearTimeout` the stored handle
here, so `pending` is untouched. -/
def delete (st : CacheState K V) (k : K) : Bool × CacheState K V :=
  let r := jsDelete st.cache k
  let e := jsDelete st.expiryMap k
  (r.1, { st with cache := r.2, expiryMap := e.2 })

/-- First half of `handleConstraints`: if the per-call TTL is a number or the
cache default TTL is non-null, cancel the key's previous timer (if any) and
arm a fresh one whose delay is the per-call TTL if a number, else the default
(`typeof ttl === 'number' ? ttl : this.ttl`). -/
def armExpiry (cfg : HashOpts) (st : CacheState K V) (k : K) (ttl : Option Int) :
    CacheState K V :=
  if ttl.isSome || cfg.ttl.isSome then
    let cleared :=
      match jsGet st.expiryMap k with
      | some tid => clearTimeoutIn st tid
      | none => st
    { cleared with
      expiryMap := jsSet cleared.expiryMap k cleared.nextId,
      pending := cleared.pending ++ [(cleared.nextId, k, ttl.getD (cfg.ttl.getD 0))],
      nextId := cleared.nextId + 1 }
  else st

/-- Second half of `handleConstraints`: if `hasMaxEntries(-1)` holds, evict
the single oldest-inserted entry (`this._cache.keys().next().value`) via the
`delete` path; an empty store returns unchanged. -/
def enforceCapacity (cfg : HashOpts) (st : CacheState K V) : CacheState K V :=
  if overCapacity cfg st.cache.length then
    match st.cache.head? with
    | none => st
    | some kv => (delete st kv.1).2
  else st

/-- `HashCache.handleConstraints`: TTL block then capacity block. -/
def handleConstraints (cfg : HashOpts) (st : CacheState K V) (k : K)
    (ttl : Option Int) : CacheState K V :=
  enforceCapacity cfg (armExpiry cfg st k ttl)

/-- `HashCache.set`: insert/replace the entry, then run `handleConstraints`.
A call that omits the TTL argument passes `this.ttl` (the JavaScript default
parameter), so callers model omission by passing `cfg.ttl`. -/
def set (cfg : HashOpts) (st : CacheState K V) (k : K) (v : V)
    (ttl : Option Int) : CacheState K V :=
  handleConstraints cfg { st with cache := jsSet st.cache k v } k ttl

/-- `HashCache.clear`: drop all entries, `clearTimeout` every handle stored
in `expiryMap`, and empty `expiryMap`.  Pending timers whose handle is no
longer recorded in `expiryMap` are not cancelled. -/
def clear (st : CacheState K V) : CacheState K V :=
  { st with
    cache := [],
    pending := st.pending.filter
      (fun t => !(st.expiryMap.any (fun e => e.2 == t.1))),
    expiryMap := [] }

/-- A pending timeout fires: it leaves the pending table and its callback
`() => this.delete(id)` runs. -/
def fireTimer (st : CacheState K V) (tid : Nat) : CacheState K V :=
  match st.pending.find? (fun t => t.1 == tid) with
  | none => st
  | some t => (delete (clearTimeoutIn st tid) t.2.1).2

end HashCache

/-- External events driving one core cache instance: the mutating calls plus
the firing of a pending expiry timeout. -/
inductive CEvent (K V : Type) where
  | eset : K → V → Option Int → CEvent K V
  | edel : K → CEvent K V
  | eclr : CEvent K V
  | efire : Nat → CEvent K V

/-- One step of the core cache under an event. -/
def cstep (cfg : HashOpts) (st : CacheState K V) : CEvent K V → CacheState K V
  | CEvent.eset k v ttl => HashCache.set cfg st k v ttl
  | CEvent.edel k => (HashCache.delete st k).2
  | CEvent.eclr => HashCache.clear st
  | CEvent.efire tid => HashCache.fireTimer st tid

/-- Run a sequence of events. -/
def crun (cfg : HashOpts) (st : CacheState K V) (evs : List (CEvent K V)) :
    CacheState K V :=
  evs.foldl (cstep cfg) st

/-- States reachable from a freshly constructed cache. -/
def Reachable (cfg : HashOpts) (st : CacheState K V) : Prop :=
  ∃ evs, crun cfg emptyCache evs = st

/-! ### Projection lemmas for the core cache -/

@[simp] theorem clearTimeoutIn_cache (st : CacheState K V) (tid : Nat) :
    (clearTimeoutIn st tid).cache = st.cache := rfl

@[simp] theorem clearTimeoutIn_nextId (st : CacheState K V) (tid : Nat) :
    (clearTimeoutIn st tid).nextId = st.nextId := rfl

@[simp] theorem delete_cache (st : CacheState K V) (k : K) :
    ((HashCache.delete st k).2).cache = (jsDelete st.cache k).2 := rfl

@[simp] theorem delete_pending (st : CacheState K V) (k : K) :
    ((HashCache.delete st k).2).pending = st.pending := rfl

theorem armExpiry_cache (cfg : HashOpts) (st : CacheState K V) (k : K)
    (ttl : Option Int) : (HashCache.armExpiry cfg st k ttl).cache = st.cache := by
  unfold HashCache.armExpiry
  by_cases h : (ttl.isSome || cfg.ttl.isSome) = true
  · simp only [h, if_true]
    cases jsGet st.expiryMap k <;> rfl
  · simp [h]

theorem enforceCapacity_cache (cfg : HashOpts) (st : CacheState K V) :
    (HashCache.enforceCapacity cfg st).cache =
      if overCapacity cfg st.cache.length then st.cache.tail else st.cache := by
  obtain ⟨c, e, p, n⟩ := st
  unfold HashCache.enforceCapacity
  by_cases h : overCapacity cfg c.length = true
  · simp only [h, if_true]
    cases c with
    | nil => simp
    | cons hd tl =>
        obtain ⟨k1, v1⟩ := hd
        simp [HashCache.delete, jsDelete_cons_self]
  · simp [h]

theorem enforceCapacity_pending (cfg : HashOpts) (st : CacheState K V) :
    (HashCache.enforceCapacity cfg st).pending = st.pending := by
  unfold HashCache.enforceCapacity
  by_cases h : overCapacity cfg st.cache.length = true
  · simp only [h, if_true]
    cases st.cache.head? with
    | none => rfl
    | some kv => rfl
  · simp [h]

/-- Effect of `set` on the entry store alone: insert/replace, then evict the
head (oldest-inserted entry) exactly when the store now exceeds capacity. -/
theorem set_cache_eq (cfg : HashOpts) (st : CacheState K V) (k : K) (v : V)
    (ttl : Option Int) :
    (HashCache.set cfg st k v ttl).cache =
      if overCapacity cfg (jsSet st.cache k v).length then
        (jsSet st.cache k v).tail
      else jsSet st.cache k v := by
  unfold HashCache.set HashCache.handleConstraints
  rw [enforceCapacity_cache, armExpiry_cache]

/-! ### Durable Snapshot Layer (`PersistentHashCache`) -/

/-- State of one `PersistentHashCache` instance.
`core` is the inherited `HashCache` state (keys and values are text);
`cacheHash` is `_cacheHash`, the last-loaded/last-saved content fingerprint;
`scheduled` is whether `_throttleSaveCacheTimeout` holds a live debounce
timer; `disk` is the backing file's content, represented by its `JSON.parse`
outcome; `pendingWrite` is an initiated but not yet completed
`fs.promises.writeFile` (the document being written — the source serializes
the store when the asynchronous `saveCache` body runs, which is modelled at
initiation since only the completion is observable); `writes` counts
initiated disk writes (bookkeeping for the coalescing claims, not a field of
the source class). -/
structure PState where
  core : CacheState String String
  cacheHash : Option String
  scheduled : Bool
  disk : Option Json
  pendingWrite : Option Json
  writes : Nat

/-- `Object.fromEntries(this._cache.entries())` as a JSON document. -/
def entriesJson (c : List (String × String)) : Json :=
  Json.obj (c.map (fun kv => (kv.1, Json.str kv.2)))

/-- `throttleSaveCache`: a save request is a no-op if a save is already
scheduled, else it arms the debounce timer. -/
def throttleSaveCache (st : PState) : PState :=
  if st.scheduled then st else { st with scheduled := true }

/-- `throttleSaveRun` (the debounce timer's callback): fingerprint the
current full store; if it equals `_cacheHash`, skip (clearing the schedule);
else record the new fingerprint, initiate `saveCache` (asynchronous, fire and
forget) and clear the schedule. -/
def throttleSaveRun (digest : Digest) (cfg : HashOpts) (st : PState) : PState :=
  let curr := computeAnyHash digest cfg noOverride (entriesJson st.core.cache)
  if st.cacheHash = some curr then { st with scheduled := false }
  else
    { st with
      cacheHash := some curr,
      pendingWrite := some (entriesJson st.core.cache),
      writes := st.writes + 1,
      scheduled := false }

/-- `Object.entries(cache)` on a parsed JSON value: object fields in order;
arrays and strings expose index-keyed entries; numbers and booleans have no
own enumerable entries; `null` throws a `TypeError`. -/
def jsEntriesTop : Json → Except Unit (List (String × Json))
  | Json.null => Except.error ()
  | Json.bool _ => Except.ok []
  | Json.num _ => Except.ok []
  | Json.str s =>
      Except.ok ((s.toList.enum).map (fun p => (toString p.1, Json.str p.2.toString)))
  | Json.arr xs => Except.ok ((xs.enum).map (fun p => (toString p.1, p.2)))
  | Json.obj fs => Except.ok fs

/-- Body of `loadCache`: parse the file (a parse failure yields `\x7b\x7d`),
then walk `Object.entries` of the result, keeping exactly the entries whose
value is text (`typeof value === 'string'`; others are skipped with a log).
Returns the parsed document (whose fingerprint becomes `_cacheHash`) and the
loaded entries, or the `TypeError` thrown by `Object.entries(null)`. -/
def loadCacheEntries (parsed : Option Json) :
    Except Unit (Json × List (String × String)) :=
  let cache := match parsed with
    | some j => j
    | none => Json.obj []
  match jsEntriesTop cache with
  | Except.error e => Except.error e
  | Except.ok ents =>
      Except.ok (cache, ents.filterMap (fun kv =>
        match kv.2 with
        | Json.str s => some (kv.1, s)
        | _ => none))

/-- The instance state right after `loadCache` resolves (before the
constructor's `.then` arms the first debounce cycle): entries are placed
directly in the store with no expiry timers, and `_cacheHash` is the
fingerprint of the parsed document. -/
def loadedState (digest : Digest) (cfg : HashOpts) (disk : Option Json)
    (doc : Json) (ents : List (String × String)) : PState :=
  { core := { cache := ents, expiryMap := [], pending := [], nextId := 0 },
    cacheHash := some (computeAnyHash digest cfg noOverride doc),
    scheduled := false,
    disk := disk,
    pendingWrite := none,
    writes := 0 }

/-- Construction of a `PersistentHashCache` over a backing file with the
given parse outcome: run `loadCache`, then arm one debounce cycle
(`.then(() => this.throttleSaveCache(...))`).  A file absent at construction
is created holding `\x7b\x7d` by `ensureCacheFileExists`, so its parse
outcome is `some (Json.obj [])`. -/
def afterLoad (digest : Digest) (cfg : HashOpts) (disk : Option Json) :
    Except Unit PState :=
  match loadCacheEntries disk with
  | Except.error e => Except.error e
  | Except.ok de => Except.ok (throttleSaveCache (loadedState digest cfg disk de.1 de.2))

/-- Events driving one `PersistentHashCache` instance after load: the
overridden mutators (each of which additionally requests a debounced save),
the firing of an expiry timeout (whose callback runs the overridden
`delete`), the firing of the debounce timer, and the completion — successful
or failed — of an initiated disk write. -/
inductive PEvent where
  | pset : String → String → Option Int → PEvent
  | pdel : String → PEvent
  | pclr : PEvent
  | pexpire : Nat → PEvent
  | psaveRun : PEvent
  | pwriteOk : PEvent
  | pwriteFail : PEvent

/-- Whether an event is the debounce timer firing. -/
def PEvent.isSaveRun : PEvent → Bool
  | PEvent.psaveRun => true
  | _ => false

/-- One step of the durable layer under an event.  The overridden mutators
request a save one or more times per call (`set` does so both through the
overridden `handleConstraints` and directly); requesting is idempotent while
a save is scheduled, so a single `throttleSaveCache` application captures the
effect.  `psaveRun` only acts when the debounce timer is live, and a write
completion only when a write is in flight. -/
def pstep (digest : Digest) (cfg : HashOpts) (st : PState) : PEvent → PState
  | PEvent.pset k v ttl =>
      throttleSaveCache { st with core := HashCache.set cfg st.core k v ttl }
  | PEvent.pdel k =>
      throttleSaveCache { st with core := (HashCache.delete st.core k).2 }
  | PEvent.pclr =>
      throttleSaveCache { st with core := HashCache.clear st.core }
  | PEvent.pexpire tid =>
      let st1 := { st with core := HashCache.fireTimer st.core tid }
      if st.core.pending.any (fun t => t.1 == tid) then throttleSaveCache st1
      else st1
  | PEvent.psaveRun =>
      if st.scheduled then throttleSaveRun digest cfg st else st
  | PEvent.pwriteOk =>
      match st.pendingWrite with
      | some doc => { st with disk := some doc, pendingWrite := none }
      | none => st
  | PEvent.pwriteFail => { st with pendingWrite := none }

/-- Run a sequence of durable-layer events. -/
def prun (digest : Digest) (cfg : HashOpts) (st : PState) (evs : List PEvent) :
    PState :=
  evs.foldl (pstep digest cfg) st

@[simp] theorem throttleSaveCache_cacheHash (st : PState) :
    (throttleSaveCache st).cacheHash = st.cacheHash := by
  unfold throttleSaveCache
  by_cases h : st.scheduled = true <;> simp [h]

@[simp] theorem throttleSaveCache_writes (st : PState) :
    (throttleSaveCache st).writes = st.writes := by
  unfold throttleSaveCache
  by_cases h : st.scheduled = true <;> simp [h]

@[simp] theorem throttleSaveCache_core (st : PState) :
    (throttleSaveCache st).core = st.core := by
  unfold throttleSaveCache
  by_cases h : st.scheduled = true <;> simp [h]

@[simp] theorem throttleSaveCache_disk (st : PState) :
    (throttleSaveCache st).disk = st.disk := by
  unfold throttleSaveCache
  by_cases h : st.scheduled = true <;> simp [h]

@[simp] theorem throttleSaveCache_pendingWrite (st : PState) :
    (throttleSaveCache st).pendingWrite = st.pendingWrite := by
  unfold throttleSaveCache
  by_cases h : st.scheduled = true <;> simp [h]

@[simp] theorem throttleSaveCache_scheduled (st : PState) :
    (throttleSaveCache st).scheduled = true := by
  unfold throttleSaveCache
  by_cases h : st.scheduled = true <;> simp [h]

/-! ### Further core lemmas on the TTL machinery -/

theorem armExpiry_pending_arm (cfg : HashOpts) (st : CacheState K V) (k : K)
    (ttl : Option Int) (h : (ttl.isSome || cfg.ttl.isSome) = true) :
    (HashCache.armExpiry cfg st k ttl).pending =
      (match jsGet st.expiryMap k with
        | some tid => st.pending.filter (fun t => t.1 != tid)
        | none => st.pending) ++ [(st.nextId, k, ttl.getD (cfg.ttl.getD 0))] := by
  unfold HashCache.armExpiry
  simp only [h, if_true]
  cases jsGet st.expiryMap k <;> rfl

theorem armExpiry_noarm (cfg : HashOpts) (st : CacheState K V) (k : K)
    (ttl : Option Int) (h : (ttl.isSome || cfg.ttl.isSome) = false) :
    HashCache.armExpiry cfg st k ttl = st := by
  unfold HashCache.armExpiry
  simp [h]

theorem set_pending_arm (cfg : HashOpts) (st : CacheState K V) (k : K) (v : V)
    (ttl : Option Int) (h : (ttl.isSome || cfg.ttl.isSome) = true) :
    (HashCache.set cfg st k v ttl).pending =
      (match jsGet st.expiryMap k with
        | some tid => st.pending.filter (fun t => t.1 != tid)
        | none => st.pending) ++ [(st.nextId, k, ttl.getD (cfg.ttl.getD 0))] := by
  unfold HashCache.set HashCache.handleConstraints
  rw [enforceCapacity_pending]
  exact armExpiry_pending_arm cfg _ k ttl h

theorem set_pending_noarm (cfg : HashOpts) (st : CacheState K V) (k : K) (v : V)
    (ttl : Option Int) (h : (ttl.isSome || cfg.ttl.isSome) = false) :
    (HashCache.set cfg st k v ttl).pending = st.pending := by
  unfold HashCache.set HashCache.handleConstraints
  rw [enforceCapacity_pending, armExpiry_noarm cfg _ k ttl h]

theorem fireTimer_pending_sub (st : CacheState K V) (tid : Nat) :
    ∀ t ∈ (HashCache.fireTimer st tid).pending, t ∈ st.pending := by
  intro t ht
  unfold HashCache.fireTimer at ht
  cases hf : st.pending.find? (fun x => x.1 == tid) with
  | none => rw [hf] at ht; exact ht
  | some t1 =>
      rw [hf] at ht
      simp only [delete_pending] at ht
      exact List.mem_of_mem_filter ht

theorem fireTimer_get_preserved (st : CacheState K V) (tid : Nat) (k : K) (v : V)
    (h1 : HashCache.get st k = some v)
    (h2 : ∀ t ∈ st.pending, t.2.1 ≠ k) :
    HashCache.get (HashCache.fireTimer st tid) k = some v := by
  unfold HashCache.fireTimer
  cases hf : st.pending.find? (fun x => x.1 == tid) with
  | none => exact h1
  | some t =>
      have hmem : t ∈ st.pending := List.mem_of_find?_eq_some hf
      have hne : t.2.1 ≠ k := h2 t hmem
      show jsGet (jsDelete (clearTimeoutIn st tid).cache t.2.1).2 k = some v
      rw [clearTimeoutIn_cache, jsGet_jsDelete_ne _ _ _ hne]
      exact h1

/-- Firing any sequence of pending timers never removes a key that no pending
timer targets. -/
theorem fires_preserve_get (k : K) (v : V) :
    ∀ (fires : List Nat) (st : CacheState K V),
      HashCache.get st k = some v →
      (∀ t ∈ st.pending, t.2.1 ≠ k) →
      HashCache.get (fires.foldl HashCache.fireTimer st) k = some v := by
  intro fires
  induction fires with
  | nil => intro st h1 _; exact h1
  | cons tid rest ih =>
      intro st h1 h2
      simp only [List.foldl_cons]
      exact ih (HashCache.fireTimer st tid)
        (fireTimer_get_preserved st tid k v h1 h2)
        (fun t ht => h2 t (fireTimer_pending_sub st tid t ht))

/-! ### Shared concrete configurations for evaluations -/

/-- A configuration with the source's default one-hour TTL and no capacity
bound. -/
def cfgTtl : HashOpts := ⟨"sha256", "hex", 14, some 3600000, none⟩

/-- A configuration with default TTL null (never expires) and no capacity
bound. -/
def cfgNull : HashOpts := ⟨"sha256", "hex", 14, none, none⟩

/-! ### Claim C1 -/

/-- Claim C1, counterexample.  On a cache whose default TTL is non-null
(one hour), `set("k", "v", null)` — an explicit "no expiry" override — still
arms an expiry timer: the arming condition of `handleConstraints` is
`typeof ttl === 'number' || this.hasTTL()`, so the null override is ignored
and a timer with the default delay 3600000 ms is scheduled, and the key gets
an `expiryMap` record.  The claim asserts the key is left with no expiry
timer. -/
theorem C1_counterexample :
    cfgTtl.ttl = some 3600000 ∧
    (HashCache.set cfgTtl (emptyCache : CacheState String String)
        "k" "v" none).pending = [(0, "k", 3600000)] ∧
    jsGet (HashCache.set cfgTtl (emptyCache : CacheState String String)
        "k" "v" none).expiryMap "k" = some 0 := by
  refine ⟨rfl, rfl, rfl⟩

/-- Claim C1 (amended).  On `set(key, value, ttlOverride)` a timer is armed
iff the per-call TTL is a number or the cache default TTL is non-null; its
delay is the per-call TTL when that is a number, else the default — so an
explicit null override on a cache with a non-null default still arms a timer
with the default delay.  When both are null no timer is armed, and if
additionally no already-pending timer targets the key (and the cache is
unbounded), any sequence of timer firings leaves `get` returning the value:
no spontaneous expiry. -/
theorem C1_set_ttl (cfg : HashOpts) :
    (∀ (st : CacheState String String) (k v : String) (ttl : Option Int),
        (ttl.isSome || cfg.ttl.isSome) = true →
        (HashCache.set cfg st k v ttl).pending =
          (match jsGet st.expiryMap k with
            | some tid => st.pending.filter (fun t => t.1 != tid)
            | none => st.pending) ++
            [(st.nextId, k, ttl.getD (cfg.ttl.getD 0))]) ∧
    (∀ (st : CacheState String String) (k v : String),
        cfg.ttl = none →
        (HashCache.set cfg st k v none).pending = st.pending) ∧
    (∀ (st : CacheState String String) (k v : String),
        cfg.ttl = none → cfg.maxEntries = none →
        (∀ t ∈ st.pending, t.2.1 ≠ k) →
        ∀ fires : List Nat,
          HashCache.get (fires.foldl HashCache.fireTimer
            (HashCache.set cfg st k v none)) k = some v) := by
  refine ⟨fun st k v ttl h => set_pending_arm cfg st k v ttl h,
          fun st k v h => set_pending_noarm cfg st k v none (by simp [h]),
          fun st k v h hmax hp fires => ?_⟩
  apply fires_preserve_get
  · show jsGet (HashCache.set cfg st k v none).cache k = some v
    rw [set_cache_eq]
    have hoc : overCapacity cfg (jsSet st.cache k v).length = false := by
      unfold overCapacity
      rw [hmax]
    rw [hoc]
    simp only [if_false, Bool.false_eq_true]
    exact jsGet_jsSet_self st.cache k v
  · rw [set_pending_noarm cfg st k v none (by simp [h])]
    exact hp

/-- Claim C1 witness: the amended theorem applied at concrete inputs.  A set
with an explicit null override on the one-hour-default cache arms the timer
`(0, "k", 3600000)`; on a default-null cache a set with no override arms
nothing and `get` still answers after a (vacuous) firing sequence. -/
theorem C1_set_ttl_witness :
    (HashCache.set cfgTtl (emptyCache : CacheState String String)
        "k" "v" none).pending = [(0, "k", 3600000)] ∧
    HashCache.get (([17] : List Nat).foldl HashCache.fireTimer
        (HashCache.set cfgNull (emptyCache : CacheState String String)
          "k" "v" none)) "k" = some "v" := by
  constructor
  · have h := (C1_set_ttl cfgTtl).1 emptyCache "k" "v" none rfl
    simpa using h
  · exact (C1_set_ttl cfgNull).2.2 emptyCache "k" "v" rfl rfl
      (by intro t ht; simp [emptyCache] at ht) [17]

/-! ### Claim C2 -/

/-- Claim C2, evaluation of the code at the failing input.  On a cache with
default TTL null: `set("k","v",100)` arms timer 0; `delete("k")` removes the
entry and the `expiryMap` record but — unlike `clear` and unlike re-set —
never calls `clearTimeout`, so timer 0 stays pending with no corresponding
entry (refuting the claimed invariant); `set("k","v2")` with no TTL arms
nothing; when the stale timer then fires, its callback `delete("k")` removes
the fresh value early, so `get("k")` answers `none` although `"v2"` was
stored with no expiry and never explicitly deleted. -/
theorem C2_stale_timer_evaluation :
    (crun cfgNull (emptyCache : CacheState String String)
        [CEvent.eset "k" "v" (some 100), CEvent.edel "k"]).pending
        = [(0, "k", 100)] ∧
    (crun cfgNull (emptyCache : CacheState String String)
        [CEvent.eset "k" "v" (some 100), CEvent.edel "k"]).cache = [] ∧
    HashCache.get (crun cfgNull (emptyCache : CacheState String String)
        [CEvent.eset "k" "v" (some 100), CEvent.edel "k",
         CEvent.eset "k" "v2" none]) "k" = some "v2" ∧
    HashCache.get (crun cfgNull (emptyCache : CacheState String String)
        [CEvent.eset "k" "v" (some 100), CEvent.edel "k",
         CEvent.eset "k" "v2" none, CEvent.efire 0]) "k" = none := by
  refine ⟨rfl, rfl, rfl, rfl⟩

/-! ### Capacity lemmas -/

theorem overCapacity_eq_true (cfg : HashOpts) (N : Int)
    (hm : cfg.maxEntries = some N) (n : Nat) (h : N ≤ (n : Int) - 1) :
    overCapacity cfg n = true := by
  unfold overCapacity
  rw [hm]
  simpa using h

theorem overCapacity_eq_false (cfg : HashOpts) (N : Int)
    (hm : cfg.maxEntries = some N) (n : Nat) (h : (n : Int) - 1 < N) :
    overCapacity cfg n = false := by
  unfold overCapacity
  rw [hm]
  simpa using h

theorem set_cache_of_over (cfg : HashOpts) (st : CacheState K V) (k : K) (v : V)
    (ttl : Option Int) (h : overCapacity cfg (jsSet st.cache k v).length = true) :
    (HashCache.set cfg st k v ttl).cache = (jsSet st.cache k v).tail := by
  rw [set_cache_eq, if_pos h]

theorem set_cache_of_not_over (cfg : HashOpts) (st : CacheState K V) (k : K)
    (v : V) (ttl : Option Int)
    (h : overCapacity cfg (jsSet st.cache k v).length = false) :
    (HashCache.set cfg st k v ttl).cache = jsSet st.cache k v := by
  rw [set_cache_eq, if_neg]
  simp [h]

theorem cstep_length_le (cfg : HashOpts) (N : Int)
    (hm : cfg.maxEntries = some N) (hN : 0 ≤ N) (st : CacheState K V)
    (ev : CEvent K V) (h : (st.cache.length : Int) ≤ N) :
    ((cstep cfg st ev).cache.length : Int) ≤ N := by
  cases ev with
  | eset k v ttl =>
      show ((HashCache.set cfg st k v ttl).cache.length : Int) ≤ N
      rw [set_cache_eq]
      have h1 := jsSet_length_le st.cache k v
      by_cases hoc : overCapacity cfg (jsSet st.cache k v).length = true
      · rw [if_pos hoc]
        rw [List.length_tail]
        omega
      · rw [if_neg hoc]
        have h2 : overCapacity cfg (jsSet st.cache k v).length = false :=
          Bool.eq_false_iff.2 hoc
        unfold overCapacity at h2
        rw [hm] at h2
        simp only [decide_eq_false_iff_not, not_le] at h2
        omega
  | edel k =>
      show (((jsDelete st.cache k).2).length : Int) ≤ N
      have := jsDelete_length_le st.cache k
      omega
  | eclr =>
      show ((([] : List (K × V)).length : Int) ≤ N)
      simpa using hN
  | efire tid =>
      show ((HashCache.fireTimer st tid).cache.length : Int) ≤ N
      unfold HashCache.fireTimer
      cases hf : st.pending.find? (fun t => t.1 == tid) with
      | none => exact h
      | some t =>
          show (((jsDelete (clearTimeoutIn st tid).cache t.2.1).2).length : Int) ≤ N
          rw [clearTimeoutIn_cache]
          have := jsDelete_length_le st.cache t.2.1
          omega

theorem crun_length_le (cfg : HashOpts) (N : Int)
    (hm : cfg.maxEntries = some N) (hN : 0 ≤ N) :
    ∀ (evs : List (CEvent K V)) (st : CacheState K V),
      (st.cache.length : Int) ≤ N → ((crun cfg st evs).cache.length : Int) ≤ N := by
  intro evs
  induction evs with
  | nil => intro st h; exact h
  | cons ev rest ih =>
      intro st h
      simp only [crun, List.foldl_cons]
      exact ih (cstep cfg st ev) (cstep_length_le cfg N hm hN st ev h)

theorem crun_insert_no_evict (cfg : HashOpts) (N : Int)
    (hm : cfg.maxEntries = some N) (vals : K → V) :
    ∀ (keys : List K) (st : CacheState K V),
      (st.cache.length : Int) + keys.length ≤ N →
      (∀ k ∈ keys, jsGet st.cache k = none) →
      keys.Nodup →
      (crun cfg st (keys.map (fun k => CEvent.eset k (vals k) cfg.ttl))).cache
        = st.cache ++ keys.map (fun k => (k, vals k)) := by
  intro keys
  induction keys with
  | nil => intro st _ _ _; simp [crun]
  | cons k rest ih =>
      intro st hlen habs hnd
      simp only [List.map_cons, crun, List.foldl_cons]
      have habsk : jsGet st.cache k = none := habs k (List.mem_cons_self k rest)
      have hins : jsSet st.cache k (vals k) = st.cache ++ [(k, vals k)] :=
        jsSet_of_absent st.cache k (vals k) habsk
      have hset : (cstep cfg st (CEvent.eset k (vals k) cfg.ttl)).cache
          = st.cache ++ [(k, vals k)] := by
        show (HashCache.set cfg st k (vals k) cfg.ttl).cache = _
        rw [set_cache_of_not_over, hins]
        rw [hins]
        apply overCapacity_eq_false cfg N hm
        simp only [List.length_append, List.length_cons, List.length_nil,
          List.length_cons] at hlen ⊢
        push_cast
        omega
      have habs1 : ∀ k2 ∈ rest,
          jsGet (cstep cfg st (CEvent.eset k (vals k) cfg.ttl)).cache k2 = none := by
        intro k2 hk2
        rw [hset, jsGet_append_of_none _ _ _ (habs k2 (List.mem_cons_of_mem k hk2))]
        have hne : k ≠ k2 := by
          intro hkk
          subst hkk
          exact (List.nodup_cons.1 hnd).1 hk2
        simp [jsGet, hne]
      have ihr := ih (cstep cfg st (CEvent.eset k (vals k) cfg.ttl))
        (by rw [hset]; simp only [List.length_append, List.length_cons,
              List.length_nil, List.length_cons] at hlen ⊢; push_cast; push_cast at hlen; omega)
        habs1 (List.nodup_cons.1 hnd).2
      unfold crun at ihr
      rw [ihr, hset, List.append_assoc, List.singleton_append]

theorem crun_insert_evict_last (cfg : HashOpts) (N : Int)
    (hm : cfg.maxEntries = some N) (vals : K → V) :
    ∀ (keys : List K) (st : CacheState K V),
      keys ≠ [] →
      (st.cache.length : Int) + keys.length = N + 1 →
      (∀ k ∈ keys, jsGet st.cache k = none) →
      keys.Nodup →
      (crun cfg st (keys.map (fun k => CEvent.eset k (vals k) cfg.ttl))).cache
        = (st.cache ++ keys.map (fun k => (k, vals k))).tail := by
  intro keys
  induction keys with
  | nil => intro st h; cases h rfl
  | cons k rest ih =>
      intro st _ hlen habs hnd
      have habsk : jsGet st.cache k = none := habs k (List.mem_cons_self k rest)
      have hins : jsSet st.cache k (vals k) = st.cache ++ [(k, vals k)] :=
        jsSet_of_absent st.cache k (vals k) habsk
      cases rest with
      | nil =>
          simp only [List.map_cons, List.map_nil, crun, List.foldl_cons,
            List.foldl_nil]
          show (HashCache.set cfg st k (vals k) cfg.ttl).cache = _
          rw [set_cache_of_over, hins]
          rw [hins]
          apply overCapacity_eq_true cfg N hm
          simp only [List.length_cons, List.length_nil] at hlen
          simp only [List.length_append, List.length_cons, List.length_nil]
          push_cast
          push_cast at hlen
          omega
      | cons k2 rest2 =>
          simp only [List.map_cons, crun, List.foldl_cons]
          have hset : (cstep cfg st (CEvent.eset k (vals k) cfg.ttl)).cache
              = st.cache ++ [(k, vals k)] := by
            show (HashCache.set cfg st k (vals k) cfg.ttl).cache = _
            rw [set_cache_of_not_over, hins]
            rw [hins]
            apply overCapacity_eq_false cfg N hm
            simp only [List.length_cons] at hlen
            simp only [List.length_append, List.length_cons, List.length_nil]
            push_cast
            push_cast at hlen
            omega
          have habs1 : ∀ k3 ∈ k2 :: rest2,
              jsGet (cstep cfg st (CEvent.eset k (vals k) cfg.ttl)).cache k3
                = none := by
            intro k3 hk3
            rw [hset, jsGet_append_of_none _ _ _
              (habs k3 (List.mem_cons_of_mem k hk3))]
            have hne : k ≠ k3 := by
              intro hkk
              subst hkk
              exact (List.nodup_cons.1 hnd).1 hk3
            simp [jsGet, hne]
          have ihr := ih (cstep cfg st (CEvent.eset k (vals k) cfg.ttl))
            (by simp) 
            (by rw [hset]
                simp only [List.length_cons] at hlen
                simp only [List.length_append, List.length_cons, List.length_nil]
                push_cast
                push_cast at hlen
                omega)
            habs1 (List.nodup_cons.1 hnd).2
          simp only [List.map_cons] at ihr
          unfold crun at ihr
          rw [List.foldl_cons] at ihr
          rw [ihr, hset]
          rw [List.append_assoc, List.singleton_append]

/-! ### Claim C3 -/

/-- Claim C3.  With `maxEntries = N` (N ≥ 0): (1) each `set` call inserts and
then evicts the single oldest-inserted entry (the head of the insertion
order) exactly when the store then holds more than N entries, and otherwise
evicts nothing; (2) every state reachable from an empty cache keeps the store
size at most N, so every `set` returns with at most N entries; (3) inserting
N+1 distinct keys into an empty cache leaves exactly the last N of them, the
first-inserted key having been evicted. -/
theorem C3_capacity (cfg : HashOpts) (N : Int) (hm : cfg.maxEntries = some N)
    (hN : 0 ≤ N) :
    (∀ (st : CacheState String String) (k v : String) (ttl : Option Int),
        (HashCache.set cfg st k v ttl).cache =
          if overCapacity cfg (jsSet st.cache k v).length then
            (jsSet st.cache k v).tail
          else jsSet st.cache k v) ∧
    (∀ st : CacheState String String,
        Reachable cfg st → (st.cache.length : Int) ≤ N) ∧
    (∀ (keys : List String) (vals : String → String),
        keys.Nodup → (keys.length : Int) = N + 1 →
        (crun cfg (emptyCache : CacheState String String)
            (keys.map (fun k => CEvent.eset k (vals k) cfg.ttl))).cache
          = keys.tail.map (fun k => (k, vals k))) := by
  refine ⟨fun st k v ttl => set_cache_eq cfg st k v ttl, ?_, ?_⟩
  · rintro st ⟨evs, rfl⟩
    exact crun_length_le cfg N hm hN evs emptyCache (by simpa [emptyCache] using hN)
  · intro keys vals hnd hlen
    have hne : keys ≠ [] := by
      intro hk
      subst hk
      simp at hlen
      omega
    have h := crun_insert_evict_last cfg N hm vals keys emptyCache hne
      (by simpa [emptyCache] using hlen) (by intro k _; simp [emptyCache]) hnd
    rw [h]
    show (([] : List (String × String)) ++ keys.map (fun k => (k, vals k))).tail
        = keys.tail.map (fun k => (k, vals k))
    rw [List.nil_append]
    cases keys with
    | nil => simp
    | cons kh kt => simp

/-- A configuration with `maxEntries = 2` and no default TTL. -/
def cfgCap2 : HashOpts := ⟨"sha256", "hex", 14, none, some 2⟩

/-- Claim C3 witness: the capacity theorem applied at `maxEntries = 2`.  One
insertion into an empty cache keeps the size bound, and inserting the three
distinct keys a, b, c leaves exactly b and c (a, the first-inserted, was
evicted). -/
theorem C3_capacity_witness :
    ((crun cfgCap2 (emptyCache : CacheState String String)
        [CEvent.eset "a" "1" none]).cache.length : Int) ≤ 2 ∧
    (crun cfgCap2 (emptyCache : CacheState String String)
        (["a", "b", "c"].map (fun k => CEvent.eset k k cfgCap2.ttl))).cache
      = [("b", "b"), ("c", "c")] := by
  constructor
  · exact (C3_capacity cfgCap2 2 rfl (by norm_num)).2.1 _
      ⟨[CEvent.eset "a" "1" none], rfl⟩
  · have h := (C3_capacity cfgCap2 2 rfl (by norm_num)).2.2 ["a", "b", "c"]
      (fun k => k) (by decide) (by decide)
    simpa using h

/-! ### Claim C10 -/

/-- Claim C10.  Re-setting an existing key does not change its position in
the insertion order used for capacity eviction: on a full cache
(`maxEntries = N`, store `(k1, v1) :: rest` of size N), `set(k1, v')` updates
k1 in place without eviction, and a following insertion of a fresh key evicts
k1 — still the oldest-inserted entry — not the second-oldest, even though k1
was the most recently written key. -/
theorem C10_insertion_order (cfg : HashOpts) (N : Int)
    (hm : cfg.maxEntries = some N) (k1 v1 : String)
    (rest : List (String × String)) (em : List (String × Nat))
    (pd : List (Nat × String × Int)) (ni : Nat)
    (hnd : k1 ∉ rest.map Prod.fst)
    (hlen : (rest.length : Int) + 1 = N)
    (knew vnew v2 : String) (hnew : knew ≠ k1 ∧ knew ∉ rest.map Prod.fst) :
    (HashCache.set cfg ⟨(k1, v1) :: rest, em, pd, ni⟩ k1 v2 cfg.ttl).cache
        = (k1, v2) :: rest ∧
    (HashCache.set cfg (HashCache.set cfg ⟨(k1, v1) :: rest, em, pd, ni⟩
        k1 v2 cfg.ttl) knew vnew cfg.ttl).cache
        = rest ++ [(knew, vnew)] ∧
    jsGet (HashCache.set cfg (HashCache.set cfg ⟨(k1, v1) :: rest, em, pd, ni⟩
        k1 v2 cfg.ttl) knew vnew cfg.ttl).cache k1 = none := by
  have hset1 : jsSet ((k1, v1) :: rest) k1 v2 = (k1, v2) :: rest := by
    simp [jsSet]
  have hc1 : (HashCache.set cfg ⟨(k1, v1) :: rest, em, pd, ni⟩ k1 v2
      cfg.ttl).cache = (k1, v2) :: rest := by
    show (HashCache.set cfg ⟨(k1, v1) :: rest, em, pd, ni⟩ k1 v2 cfg.ttl).cache
        = _
    rw [set_cache_of_not_over, hset1]
    rw [hset1]
    apply overCapacity_eq_false cfg N hm
    simp only [List.length_cons]
    push_cast
    omega
  have habs2 : jsGet ((k1, v2) :: rest) knew = none := by
    rw [jsGet_none_iff]
    simp only [List.map_cons, List.mem_cons]
    push_neg
    exact ⟨hnew.1, hnew.2⟩
  have hset2 : jsSet ((k1, v2) :: rest) knew vnew
      = (k1, v2) :: rest ++ [(knew, vnew)] := by
    rw [jsSet_of_absent _ _ _ habs2]
  have hc2 : (HashCache.set cfg (HashCache.set cfg ⟨(k1, v1) :: rest, em, pd, ni⟩
      k1 v2 cfg.ttl) knew vnew cfg.ttl).cache = rest ++ [(knew, vnew)] := by
    rw [set_cache_of_over]
    · rw [hc1, hset2]
      rfl
    · rw [hc1, hset2]
      apply overCapacity_eq_true cfg N hm
      simp only [List.cons_append, List.length_cons, List.length_append,
        List.length_nil]
      push_cast
      omega
  refine ⟨hc1, hc2, ?_⟩
  rw [hc2, jsGet_none_iff]
  simp only [List.map_append, List.map_cons, List.map_nil, List.mem_append,
    List.mem_cons, List.not_mem_nil, or_false]
  push_neg
  exact ⟨hnd, fun hkk => hnew.1 hkk.symm⟩

/-- Claim C10 witness: with `maxEntries = 2` and store a ↦ 1, b ↦ 2 (a
oldest), re-setting a and then inserting c evicts a, leaving b then c. -/
theorem C10_insertion_order_witness :
    (HashCache.set cfgCap2 (HashCache.set cfgCap2
        ⟨[("a", "1"), ("b", "2")], [], [], 0⟩ "a" "9" cfgCap2.ttl)
        "c" "3" cfgCap2.ttl).cache = [("b", "2"), ("c", "3")] ∧
    jsGet (HashCache.set cfgCap2 (HashCache.set cfgCap2
        ⟨[("a", "1"), ("b", "2")], [], [], 0⟩ "a" "9" cfgCap2.ttl)
        "c" "3" cfgCap2.ttl).cache "a" = none := by
  have h := C10_insertion_order cfgCap2 2 rfl "a" "1" [("b", "2")] [] [] 0
    (by decide) (by decide) "c" "3" "9" (by decide)
  exact ⟨h.2.1, h.2.2⟩

/-! ### Lemmas on the debounced save -/

theorem throttleSaveRun_cacheHash (digest : Digest) (cfg : HashOpts)
    (st : PState) :
    (throttleSaveRun digest cfg st).cacheHash
      = some (computeAnyHash digest cfg noOverride (entriesJson st.core.cache)) := by
  unfold throttleSaveRun
  by_cases h : st.cacheHash
      = some (computeAnyHash digest cfg noOverride (entriesJson st.core.cache))
  · rw [if_pos h]
    exact h
  · rw [if_neg h]

theorem throttleSaveRun_core (digest : Digest) (cfg : HashOpts) (st : PState) :
    (throttleSaveRun digest cfg st).core = st.core := by
  unfold throttleSaveRun
  by_cases h : st.cacheHash
      = some (computeAnyHash digest cfg noOverride (entriesJson st.core.cache))
  · rw [if_pos h]
  · rw [if_neg h]

theorem throttleSaveRun_skip (digest : Digest) (cfg : HashOpts) (st : PState)
    (h : st.cacheHash
      = some (computeAnyHash digest cfg noOverride (entriesJson st.core.cache))) :
    throttleSaveRun digest cfg st = { st with scheduled := false } := by
  unfold throttleSaveRun
  rw [if_pos h]

theorem throttleSaveRun_writes_le (digest : Digest) (cfg : HashOpts)
    (st : PState) :
    (throttleSaveRun digest cfg st).writes ≤ st.writes + 1 := by
  unfold throttleSaveRun
  by_cases h : st.cacheHash
      = some (computeAnyHash digest cfg noOverride (entriesJson st.core.cache))
  · rw [if_pos h]
    exact Nat.le_succ _
  · rw [if_neg h]

/-! ### Claim C4 -/

/-- The identity digest: a concrete instantiation of the digest collaborator
under which equal fingerprints mean equal serialized documents. -/
def digestId : Digest := fun _ _ data => data

/-- A durable-layer configuration with no default TTL, no capacity bound and
a truncation length large enough to keep the full serialization of the small
documents used in the evaluations. -/
def cfg0 : HashOpts := ⟨"sha256", "hex", 99, none, none⟩

/-- The state of a `PersistentHashCache` over an empty backing document
(`\x7b\x7d`, the content `ensureCacheFileExists` creates) right after its
constructor finishes loading and arms the first debounce cycle. -/
def c4start : PState :=
  throttleSaveCache (loadedState digestId cfg0 (some (Json.obj []))
    (Json.obj []) [])

set_option maxRecDepth 8000 in
/-- Claim C4, counterexample.  Load over an empty document, `set("x","1")`,
let the debounce timer fire (which updates `_cacheHash` and merely initiates
the asynchronous write), and let the write FAIL: the disk still holds the
empty document, but `_cacheHash` is no longer its fingerprint — the source
updates `_cacheHash` before the write completes and never rolls it back, so
the fingerprint does not track "the document most recently known to be on
disk" and a failed write does update it, contrary to the claim. -/
theorem C4_counterexample :
    afterLoad digestId cfg0 (some (Json.obj [])) = Except.ok c4start ∧
    (prun digestId cfg0 c4start
        [PEvent.pset "x" "1" none, PEvent.psaveRun, PEvent.pwriteFail]).disk
      = some (Json.obj []) ∧
    (prun digestId cfg0 c4start
        [PEvent.pset "x" "1" none, PEvent.psaveRun, PEvent.pwriteFail]).cacheHash
      ≠ some (computeAnyHash digestId cfg0 noOverride (Json.obj [])) := by
  refine ⟨rfl, rfl, by decide⟩

/-- Claim C4 (amended).  `lastSnapshotHash` (`_cacheHash`) is updated exactly
at load time (to the fingerprint of the parsed document) and at each debounce
run (to the fingerprint of the current store — whether that run skips or
initiates a write, and before any initiated write completes); mutations and
write completions, successful or failed, never change it.  In particular a
failed write leaves the updated fingerprint in place. -/
theorem C4_fingerprint_update (digest : Digest) (cfg : HashOpts) :
    (∀ (st : PState) (k v : String) (ttl : Option Int),
        (pstep digest cfg st (PEvent.pset k v ttl)).cacheHash = st.cacheHash) ∧
    (∀ (st : PState) (k : String),
        (pstep digest cfg st (PEvent.pdel k)).cacheHash = st.cacheHash) ∧
    (∀ st : PState,
        (pstep digest cfg st PEvent.pclr).cacheHash = st.cacheHash) ∧
    (∀ (st : PState) (tid : Nat),
        (pstep digest cfg st (PEvent.pexpire tid)).cacheHash = st.cacheHash) ∧
    (∀ st : PState,
        (pstep digest cfg st PEvent.pwriteOk).cacheHash = st.cacheHash) ∧
    (∀ st : PState,
        (pstep digest cfg st PEvent.pwriteFail).cacheHash = st.cacheHash) ∧
    (∀ st : PState,
        (throttleSaveRun digest cfg st).cacheHash
          = some (computeAnyHash digest cfg noOverride
              (entriesJson st.core.cache))) ∧
    (∀ (disk : Option Json) (doc : Json) (ents : List (String × String))
        (st : PState),
        loadCacheEntries disk = Except.ok (doc, ents) →
        afterLoad digest cfg disk = Except.ok st →
        st.cacheHash = some (computeAnyHash digest cfg noOverride doc)) := by
  refine ⟨fun st k v ttl => by simp [pstep],
          fun st k => by simp [pstep],
          fun st => by simp [pstep],
          fun st tid => ?_,
          fun st => ?_,
          fun st => rfl,
          fun st => throttleSaveRun_cacheHash digest cfg st,
          fun disk doc ents st h1 h2 => ?_⟩
  · by_cases h : (st.core.pending.any fun t => t.1 == tid) = true <;>
      simp [pstep, h]
  · cases hpw : st.pendingWrite <;> simp [pstep, hpw]
  · unfold afterLoad at h2
    rw [h1] at h2
    injection h2 with h3
    rw [← h3]
    simp [loadedState]

/-- Claim C4 witness: the amended theorem's load clause applied to the
concrete load of an empty document, discharging both hypotheses by
computation. -/
theorem C4_fingerprint_update_witness :
    c4start.cacheHash
      = some (computeAnyHash digestId cfg0 noOverride (Json.obj [])) :=
  (C4_fingerprint_update digestId cfg0).2.2.2.2.2.2.2 (some (Json.obj []))
    (Json.obj []) [] c4start rfl rfl

/-! ### Claim C6 -/

/-- One durable-layer step initiates a disk write only when it is the
debounce timer firing, and then at most one. -/
theorem pstep_writes_le (digest : Digest) (cfg : HashOpts) (st : PState)
    (ev : PEvent) :
    (pstep digest cfg st ev).writes
      ≤ st.writes + (if PEvent.isSaveRun ev then 1 else 0) := by
  cases ev with
  | pset k v ttl => simp [pstep, PEvent.isSaveRun]
  | pdel k => simp [pstep, PEvent.isSaveRun]
  | pclr => simp [pstep, PEvent.isSaveRun]
  | pexpire tid =>
      by_cases h : (st.core.pending.any fun t => t.1 == tid) = true <;>
        simp [pstep, h, PEvent.isSaveRun]
  | psaveRun =>
      by_cases h : st.scheduled = true
      · simpa [pstep, h, PEvent.isSaveRun] using
          throttleSaveRun_writes_le digest cfg st
      · simp [pstep, h, PEvent.isSaveRun]
  | pwriteOk =>
      cases hpw : st.pendingWrite <;> simp [pstep, hpw, PEvent.isSaveRun]
  | pwriteFail => simp [pstep, PEvent.isSaveRun]

/-- Claim C6.  Debounce coalescing and the fingerprint-unchanged skip:
requesting a save while one is scheduled is a no-op (idempotence), mutations
never initiate a disk write themselves, a debounce firing initiates at most
one write, a run whose current-store fingerprint equals the last-known-saved
fingerprint only clears the schedule without writing, an immediate second run
after any run never writes (so after a successful save with no further
mutations the next interval performs no second write), and over any event
sequence the number of initiated writes is bounded by the number of debounce
firings — hence at most one write per quiet interval. -/
theorem C6_debounce (digest : Digest) (cfg : HashOpts) :
    (∀ st : PState,
        throttleSaveCache (throttleSaveCache st) = throttleSaveCache st) ∧
    (∀ (st : PState) (k v : String) (ttl : Option Int),
        (pstep digest cfg st (PEvent.pset k v ttl)).writes = st.writes) ∧
    (∀ (st : PState) (k : String),
        (pstep digest cfg st (PEvent.pdel k)).writes = st.writes) ∧
    (∀ st : PState, (pstep digest cfg st PEvent.pclr).writes = st.writes) ∧
    (∀ (st : PState) (tid : Nat),
        (pstep digest cfg st (PEvent.pexpire tid)).writes = st.writes) ∧
    (∀ st : PState,
        (pstep digest cfg st PEvent.psaveRun).writes ≤ st.writes + 1) ∧
    (∀ st : PState,
        st.cacheHash = some (computeAnyHash digest cfg noOverride
          (entriesJson st.core.cache)) →
        throttleSaveRun digest cfg st = { st with scheduled := false }) ∧
    (∀ st : PState,
        (throttleSaveRun digest cfg (throttleSaveRun digest cfg st)).writes
          = (throttleSaveRun digest cfg st).writes) ∧
    (∀ (st : PState) (evs : List PEvent),
        (prun digest cfg st evs).writes
          ≤ st.writes + evs.countP PEvent.isSaveRun) := by
  refine ⟨fun st => ?_,
          fun st k v ttl => by simp [pstep],
          fun st k => by simp [pstep],
          fun st => by simp [pstep],
          fun st tid => ?_,
          fun st => ?_,
          fun st h => throttleSaveRun_skip digest cfg st h,
          fun st => ?_,
          fun st evs => ?_⟩
  · unfold throttleSaveCache
    by_cases h : st.scheduled = true <;> simp [h]
  · by_cases h : (st.core.pending.any fun t => t.1 == tid) = true <;>
      simp [pstep, h]
  · by_cases h : st.scheduled = true
    · simpa [pstep, h] using throttleSaveRun_writes_le digest cfg st
    · simp [pstep, h]
  · have h2 : (throttleSaveRun digest cfg st).cacheHash
        = some (computeAnyHash digest cfg noOverride
            (entriesJson (throttleSaveRun digest cfg st).core.cache)) := by
      rw [throttleSaveRun_core]
      exact throttleSaveRun_cacheHash digest cfg st
    rw [throttleSaveRun_skip digest cfg _ h2]
  · induction evs generalizing st with
    | nil => simp [prun]
    | cons ev rest ih =>
        simp only [prun, List.foldl_cons, List.countP_cons]
        have h1 := ih (pstep digest cfg st ev)
        have h2 := pstep_writes_le digest cfg st ev
        unfold prun at h1
        by_cases hev : PEvent.isSaveRun ev = true
        · rw [if_pos hev] at h2
          rw [if_pos hev]
          omega
        · rw [if_neg hev] at h2
          rw [if_neg hev]
          omega

/-- Claim C6 witness: the fingerprint-unchanged skip applied to the freshly
loaded state over an empty document — its stored fingerprint is exactly the
fingerprint of its (empty) store, so the debounce run only clears the
schedule and writes nothing. -/
theorem C6_debounce_witness :
    throttleSaveRun digestId cfg0 c4start = { c4start with scheduled := false } :=
  (C6_debounce digestId cfg0).2.2.2.2.2.2.1 c4start rfl

/-! ### Claim C5 -/

/-- Claim C5, counterexample.  The backing file content `null` parses
successfully (`JSON.parse("null")` is `null`), so the `try/catch` around the
parse does not fire, and the subsequent `Object.entries(cache)` throws a
`TypeError` on `null`; the constructor attaches only `.then` to `loadCache`,
so the rejection is unhandled.  The claim that the startup load never raises
a fatal error for every possible content is false. -/
theorem C5_counterexample :
    loadCacheEntries (some Json.null) = Except.error () := rfl

/-- Claim C5 (amended).  The startup load throws exactly on content parsing
to JSON `null`: content `JSON.parse` rejects loads as an empty cache, a
parsed object loads its text-valued fields (skipping the rest), and any
other parsed value (array, string, number, boolean) loads without error —
arrays and strings contributing their index-keyed text entries rather than
an empty cache. -/
theorem C5_load_total :
    loadCacheEntries none = Except.ok (Json.obj [], []) ∧
    (∀ p : Option Json, p ≠ some Json.null →
        loadCacheEntries p ≠ Except.error ()) ∧
    (∀ fields : List (String × Json),
        loadCacheEntries (some (Json.obj fields))
          = Except.ok (Json.obj fields,
              fields.filterMap (fun kv =>
                match kv.2 with
                | Json.str s => some (kv.1, s)
                | _ => none))) := by
  refine ⟨rfl, ?_, fun fields => rfl⟩
  intro p hp
  cases p with
  | none => simp [loadCacheEntries, jsEntriesTop]
  | some j =>
      cases j with
      | null => exact absurd rfl hp
      | bool b => simp [loadCacheEntries, jsEntriesTop]
      | num n => simp [loadCacheEntries, jsEntriesTop]
      | str s => simp [loadCacheEntries, jsEntriesTop]
      | arr xs => simp [loadCacheEntries, jsEntriesTop]
      | obj fs => simp [loadCacheEntries, jsEntriesTop]

/-- Claim C5 witness: the amended theorem applied to a backing file holding
a JSON array — a malformed document shape that still loads without error. -/
theorem C5_load_total_witness :
    loadCacheEntries (some (Json.arr [])) ≠ Except.error () :=
  C5_load_total.2.1 (some (Json.arr []))
    (fun h => Json.noConfusion (Option.some.inj h))

/-! ### Claim C7 -/

/-- Instance A of the durable round trip: freshly loaded over an empty
backing document, first debounce cycle armed. -/
def stage7A (digest : Digest) (cfg : HashOpts) : PState :=
  { core := ⟨[], [], [], 0⟩,
    cacheHash := some (computeAnyHash digest cfg noOverride (Json.obj [])),
    scheduled := true,
    disk := some (Json.obj []),
    pendingWrite := none,
    writes := 0 }

/-- Instance B of the durable round trip: freshly loaded over the document
written by instance A. -/
def stage7B (digest : Digest) (cfg : HashOpts) : PState :=
  { core := ⟨[("x", "1")], [], [], 0⟩,
    cacheHash := some (computeAnyHash digest cfg noOverride
      (entriesJson [("x", "1")])),
    scheduled := true,
    disk := some (entriesJson [("x", "1")]),
    pendingWrite := none,
    writes := 0 }

/-- Claim C7.  Durable round trip: instance A loads an empty document,
`set("x","1")` (no TTL override, any default TTL), the debounce interval
elapses and the initiated write completes, leaving the serialized store on
disk; instance B constructed over that document loads `x ↦ "1"` directly
into its entry store with no expiry timer — whatever the configured default
TTL — and without capacity enforcement, so `B.get("x")` returns `"1"`.
Hypotheses: a configured `maxEntries` is at least 1 (a bound of 0 or less
evicts the sole entry at insertion), and the fingerprints of the two
involved documents differ (collision-freedom of the digest at these two
inputs; otherwise the changed-content check would skip the save). -/
theorem C7_roundtrip (digest : Digest) (cfg : HashOpts)
    (hmax : ∀ m, cfg.maxEntries = some m → 1 ≤ m)
    (hdiff : computeAnyHash digest cfg noOverride (entriesJson [("x", "1")])
      ≠ computeAnyHash digest cfg noOverride (Json.obj [])) :
    afterLoad digest cfg (some (Json.obj []))
      = Except.ok (stage7A digest cfg) ∧
    (prun digest cfg (stage7A digest cfg)
        [PEvent.pset "x" "1" cfg.ttl, PEvent.psaveRun, PEvent.pwriteOk]).disk
      = some (entriesJson [("x", "1")]) ∧
    afterLoad digest cfg (some (entriesJson [("x", "1")]))
      = Except.ok (stage7B digest cfg) ∧
    HashCache.get (stage7B digest cfg).core "x" = some "1" ∧
    (stage7B digest cfg).core.expiryMap = [] ∧
    (stage7B digest cfg).core.pending = [] := by
  have hcache : (HashCache.set cfg ⟨[], [], [], 0⟩ "x" "1" cfg.ttl).cache
      = [("x", "1")] := by
    have hoc : overCapacity cfg
        (jsSet ((⟨[], [], [], 0⟩ : CacheState String String)).cache "x" "1").length
        = false := by
      cases hm : cfg.maxEntries with
      | none =>
          unfold overCapacity
          rw [hm]
      | some m =>
          have h1 := hmax m hm
          apply overCapacity_eq_false cfg m hm
          have h2 : (jsSet ((⟨[], [], [], 0⟩ :
              CacheState String String)).cache "x" "1").length = 1 := rfl
          rw [h2]
          omega
    rw [set_cache_of_not_over cfg _ "x" "1" cfg.ttl hoc]
    rfl
  refine ⟨rfl, ?_, rfl, rfl, rfl, rfl⟩
  show (pstep digest cfg (pstep digest cfg (pstep digest cfg (stage7A digest cfg)
      (PEvent.pset "x" "1" cfg.ttl)) PEvent.psaveRun) PEvent.pwriteOk).disk = _
  have e1 : pstep digest cfg (stage7A digest cfg) (PEvent.pset "x" "1" cfg.ttl)
      = { core := HashCache.set cfg ⟨[], [], [], 0⟩ "x" "1" cfg.ttl,
          cacheHash := some (computeAnyHash digest cfg noOverride (Json.obj [])),
          scheduled := true,
          disk := some (Json.obj []),
          pendingWrite := none,
          writes := 0 } := rfl
  rw [e1]
  have e2 : pstep digest cfg
      { core := HashCache.set cfg ⟨[], [], [], 0⟩ "x" "1" cfg.ttl,
        cacheHash := some (computeAnyHash digest cfg noOverride (Json.obj [])),
        scheduled := true,
        disk := some (Json.obj []),
        pendingWrite := none,
        writes := 0 } PEvent.psaveRun
      = { core := HashCache.set cfg ⟨[], [], [], 0⟩ "x" "1" cfg.ttl,
          cacheHash := some (computeAnyHash digest cfg noOverride
            (entriesJson [("x", "1")])),
          scheduled := false,
          disk := some (Json.obj []),
          pendingWrite := some (entriesJson [("x", "1")]),
          writes := 1 } := by
    show throttleSaveRun digest cfg _ = _
    simp only [throttleSaveRun]
    rw [hcache]
    rw [if_neg (fun h => hdiff (Option.some.inj h).symm)]
  rw [e2]
  rfl

/-- A durable-layer configuration with the source's default one-hour TTL, no
capacity bound, and a truncation length keeping the small documents whole. -/
def cfgW : HashOpts := ⟨"sha256", "hex", 99, some 3600000, none⟩

set_option maxRecDepth 8000 in
/-- Claim C7 witness: the round trip applied with the identity digest and a
one-hour default TTL, discharging the capacity hypothesis (no bound) and the
fingerprint-difference hypothesis by computation. -/
theorem C7_roundtrip_witness :
    HashCache.get (stage7B digestId cfgW).core "x" = some "1" :=
  (C7_roundtrip digestId cfgW (fun m h => Option.noConfusion h)
    (by decide)).2.2.2.1

/-! ### Claim C8 -/

/-- An object value listing its fields as a then b. -/
def jsonAB : Json := Json.obj [("a", Json.str "1"), ("b", Json.str "2")]

/-- The structurally equal object listing the same fields as b then a. -/
def jsonBA : Json := Json.obj [("b", Json.str "2"), ("a", Json.str "1")]

set_option maxRecDepth 8000 in
/-- Claim C8, counterexample.  `computeAnyHash` serializes with
`JSON.stringify`, which emits fields in the value's own order rather than a
canonical one, so the two structurally equal objects a↦1,b↦2 and b↦2,a↦1
serialize to different byte strings, and under a digest that is injective on
these inputs (here the identity digest, a legitimate instance of the
abstract digest collaborator) their fingerprints differ — refuting the claim
that field order never affects the fingerprint. -/
theorem C8_counterexample :
    Json.stringify jsonAB ≠ Json.stringify jsonBA ∧
    computeAnyHash digestId cfg0 noOverride jsonAB
      ≠ computeAnyHash digestId cfg0 noOverride jsonBA := by
  exact ⟨by decide, by decide⟩

/-- Claim C8 (amended).  `computeAnyHash` delegates to `computeBufferHash`
over the `JSON.stringify` serialization of the value; that serialization
preserves the value's field order (no canonical reordering), so structurally
equal objects listing fields in different orders serialize differently and
their fingerprints agree only if the digest collides on the two
serializations. -/
theorem C8_serialization (digest : Digest) (cfg : HashOpts) (o : OptOverride) :
    (∀ v : Json, computeAnyHash digest cfg o v
        = computeBufferHash digest cfg o (Json.stringify v)) ∧
    Json.stringify jsonAB ≠ Json.stringify jsonBA := by
  exact ⟨fun v => rfl, by decide⟩

/-! ### Claim C9 -/

/-- Claim C9.  `computeStreamHash` over any finite chunk sequence consumed to
completion resolves with exactly the fingerprint `computeBufferHash` produces
on the concatenation of the chunks (under the same configuration and
override), it is invariant under re-chunking, and if the underlying stream
errors the same error is surfaced to the caller. -/
theorem C9_stream_hash (digest : Digest) (cfg : HashOpts) (o : OptOverride)
    (chunks : List String) :
    computeStreamHash digest cfg o chunks none
      = Except.ok (computeBufferHash digest cfg o (String.join chunks)) ∧
    computeStreamHash digest cfg o [String.join chunks] none
      = computeStreamHash digest cfg o chunks none ∧
    (∀ e : String,
        computeStreamHash digest cfg o chunks (some e) = Except.error e) := by
  refine ⟨rfl, ?_, fun e => rfl⟩
  unfold computeStreamHash
  simp only [List.foldl_cons, List.foldl_nil, hashUpdate, String.empty_append]
  rw [show List.foldl hashUpdate "" chunks = String.join chunks from rfl]
